import Mathlib

/-!
# Verification of the voxel-terrain core (`bevy_voxels_archive`)

A shallow embedding, in Lean 4, of the data model and algorithms of the
voxel terrain core:

* the 16-bit voxel codec (`src/voxel.rs`): 6-bit material + 10-bit distance
  code, with the float distance mapping;
* the run-length chunk store (`src/storage.rs`): `impl From<&RawChunk> for
  ChunkData` (the encoder) and `ChunkData::expand` (the decoder), plus
  `ChunkPosition` translation round-trips;
* the terrain editor (`src/edit.rs`): `ChunkModifier::get_voxel` /
  `ChunkModifier::apply_sdf` with lazy chunk materialization;
* the mesh extractor's neighborhood logic (`src/surface_nets.rs`):
  `SurroundingChunks::get_voxel` and the 27-neighborhood gathering of
  `generate_chunk`.

Machine integers are modelled as `Nat`/`Int` with explicit wrap (`% 2 ^ w`)
where the source's fixed-width arithmetic can overflow.  `f32` values are
modelled as `ℚ`; every concrete float computation relied on below is exact
in IEEE `f32` (products and quotients of small integers and halves), so the
rational model agrees with the source at all points used in the theorems.
Panics are modelled by `Option` (with `none` for a panic).
-/

namespace VoxelCore

/-! ## Constants (`src/lib.rs`)

`VOXEL_SIZE = 0.75`, `CHUNK_SIDES = 20`, `CHUNK_SIZE = 15.0`,
`CHUNK_VOXELS = 8000`. -/

/-- `VOXEL_SIZE`: the size of each voxel in meters (`0.75`). -/
def voxelSizeQ : ℚ := 3 / 4

/-- `CHUNK_SIDES`: the number of voxels per side of a chunk. -/
def chunkSides : Nat := 20

/-- `CHUNK_SIZE = CHUNK_SIDES as f32 * VOXEL_SIZE = 15.0`. -/
def chunkSizeQ : ℚ := (chunkSides : ℚ) * voxelSizeQ

/-- `CHUNK_VOXELS = CHUNK_SIDES^3 = 8000`. -/
def chunkVoxels : Nat := chunkSides * chunkSides * chunkSides

/-! ## The voxel codec (`src/voxel.rs`)

A `Voxel` is a `u16`, modelled as a `Nat` below `2^16`.  The raw word packs
`material` (6 bits) above `value` (10 bits):
`raw = (material << 10) + (value & 1023)`.  Bit operations are written with
`/`, `%` and `*` by the matching power of two. -/

/-- `Voxel::MAX_VALUE` (= `1023`), the largest 10-bit distance code. -/
def maxValue : Nat := 1023

/-- `Voxel::MAX_MATERIAL` (= `63`), the largest 6-bit material id. -/
def maxMaterial : Nat := 63

/-- `Voxel::AIR.raw()` — the raw word of `Voxel::new(0, 0)`. -/
def airRaw : Nat := 0

/-- `Voxel::material`: `raw >> 10`. -/
def voxelMaterial (w : Nat) : Nat := w / 1024

/-- `Voxel::value`: `raw & VALUE_MASK` with `VALUE_MASK = 1023`. -/
def voxelValue (w : Nat) : Nat := w % 1024

/-- `Voxel::new(material, value)`.  The source `panic!`s when
`value > MAX_VALUE` (checked first) or `material > MAX_MATERIAL`; a panic is
modelled as `none`.  On success the raw word is
`(material << 10) + (value & VALUE_MASK)`. -/
def voxelNew (material value : Nat) : Option Nat :=
  if maxValue < value then none
  else if maxMaterial < material then none
  else some (material * 1024 + value % 1024)

/-- `Voxel::THRESHOLD_F32 = MAX_VALUE as f32 / 2.0 = 511.5`, exact in `f32`. -/
def thresholdQ : ℚ := (maxValue : ℚ) / 2

/-- `impl From<Voxel> for f32`:
`(THRESHOLD_F32 - value as f32) / THRESHOLD_F32`. -/
def voxelToF32 (w : Nat) : ℚ := (thresholdQ - (voxelValue w : ℚ)) / thresholdQ

/-- A computable floor for `ℚ`: `q.num / q.den` with Euclidean `Int`
division (the denominator is positive, so this is `⌊q⌋`, see
`ratFloor_eq_floor`). -/
def ratFloor (q : ℚ) : Int := q.num / (q.den : Int)

/-- A computable ceiling for `ℚ`: `⌈q⌉ = -⌊-q⌋`. -/
def ratCeil (q : ℚ) : Int := -ratFloor (-q)

/-- `f32::round` rounds to the nearest integer, halves away from zero. -/
def roundHalfAway (q : ℚ) : Int :=
  if q < 0 then -ratFloor (-q + 1 / 2) else ratFloor (q + 1 / 2)

/-- The `as u16` cast applied to a (rounded, integral) `f32`: saturating at
`0` below and `u16::MAX` above. -/
def satU16 (z : Int) : Nat := if z < 0 then 0 else min z.toNat 65535

/-- `Voxel::with_value_f32(value)`:
`Voxel::new(self.material(), round(THRESHOLD_F32 - value * THRESHOLD_F32) as u16)`. -/
def withValueF32 (w : Nat) (x : ℚ) : Option Nat :=
  voxelNew (voxelMaterial w) (satU16 (roundHalfAway (thresholdQ - x * thresholdQ)))

/-! ## The RLE chunk store (`src/storage.rs`)

A `RawChunk` is a vector of voxels; it is modelled as a `List Nat` of raw
words.  The encoder `impl From<&RawChunk> for ChunkData` keeps a current run
`(last, count)` with `count : u16`; the increment `count += 1` therefore
wraps at `2^16` (Rust release semantics; a debug build would abort instead),
modelled by `% 65536`. -/

/-- The words the encoder appends when a run of `count` copies of `last` is
closed: `[last, count]` when `count > 1` (completing a `[value, value,
count]` triple with the literal already emitted), nothing otherwise. -/
def flushRun (last count : Nat) : List Nat :=
  if 1 < count then [last, count] else []

/-- The encoder loop of `impl From<&RawChunk> for ChunkData` after the first
element of a run has been pushed as a literal: `last` is the running value,
`count` the (wrapping `u16`) length so far. -/
def encodeGo (last count : Nat) : List Nat → List Nat
  | [] => flushRun last count
  | v :: rest =>
    if v = last then encodeGo last ((count + 1) % 65536) rest
    else flushRun last count ++ v :: encodeGo v 1 rest

/-- `impl From<&RawChunk> for ChunkData`: run-length encode a dense buffer.
The first element is always pushed as a literal and starts a run of 1. -/
def encode : List Nat → List Nat
  | [] => []
  | v :: rest => v :: encodeGo v 1 rest

/-- `ChunkData::air()`: the stream `[AIR, AIR, CHUNK_VOXELS as u16]`. -/
def chunkDataAir : List Nat := [airRaw, airRaw, chunkVoxels % 65536]

/-- `ChunkData::expand`: scan left to right; when the next word repeats the
current one and a third word exists, the third word is a repeat count
(`resize` appends that many copies); otherwise emit one copy. -/
def expand : List Nat → List Nat
  | v :: p :: n :: rest =>
    if p = v then List.replicate n v ++ expand rest
    else v :: expand (p :: n :: rest)
  | v :: rest => v :: expand rest
  | [] => []

/-! ### Run decomposition

`runs l` is the maximal-run decomposition of `l` as `(value, length)` pairs,
defined structurally so it evaluates by `decide`.  It is the specification
device used to reason about the encoder. -/

/-- Helper of `runs`: the decomposition of `rest` with an open run of
`count` copies of `v` in progress. -/
def runsGo (v count : Nat) : List Nat → List (Nat × Nat)
  | [] => [(v, count)]
  | w :: rest =>
    if w = v then runsGo v (count + 1) rest
    else (v, count) :: runsGo w 1 rest

/-- The maximal-run decomposition of a list. -/
def runs : List Nat → List (Nat × Nat)
  | [] => []
  | v :: rest => runsGo v 1 rest

/-- Length of the leading run of `v` in a list. -/
def leadCount (v : Nat) : List Nat → Nat
  | [] => 0
  | w :: rest => if w = v then leadCount v rest + 1 else 0

/-- Drop the leading run of `v` from a list. -/
def dropRun (v : Nat) : List Nat → List Nat
  | [] => []
  | w :: rest => if w = v then dropRun v rest else w :: rest

/-- Every maximal run of the buffer fits the 16-bit run counter. -/
def RunsBounded (l : List Nat) : Prop := ∀ p ∈ runs l, p.2 ≤ 65535

instance (l : List Nat) : Decidable (RunsBounded l) := by
  unfold RunsBounded; infer_instance

/-- The words the encoder emits for one maximal run `(v, c)`: a lone literal
for a (wrapped) count of 1, or a `[value, value, count]` triple. -/
def blockOf (p : Nat × Nat) : List Nat :=
  if 1 < p.2 % 65536 then [p.1, p.1, p.2 % 65536] else [p.1]

/-- Concatenation of the per-run blocks. -/
def encodeRuns : List (Nat × Nat) → List Nat
  | [] => []
  | p :: rest => blockOf p ++ encodeRuns rest

/-- Adjacent runs in a run decomposition carry distinct values. -/
def adjValuesDistinct : List (Nat × Nat) → Bool
  | p :: q :: rest => (p.1 != q.1) && adjValuesDistinct (q :: rest)
  | _ => true

/-- Offsets (into the concatenated block stream) at which the 3-word
`[value, value, count]` triples start, starting from offset `o`. -/
def tripleStarts (o : Nat) : List (Nat × Nat) → List Nat
  | [] => []
  | p :: rest =>
    if 1 < p.2 % 65536 then o :: tripleStarts (o + 3) rest
    else tripleStarts (o + 1) rest

/-- Claim C3 as stated: in the encoder-produced stream two adjacent equal
words occur only as the first two words of a `[value, value, count]`
triple (i.e. at an offset where a triple starts). -/
def NoAdjacentEqualExceptTriple (l : List Nat) : Prop :=
  ∀ i, i < (encode l).length - 1 →
    (encode l).getD i 0 = (encode l).getD (i + 1) 0 →
      i ∈ tripleStarts 0 (runs l)

instance (l : List Nat) : Decidable (NoAdjacentEqualExceptTriple l) := by
  unfold NoAdjacentEqualExceptTriple; infer_instance

/-! ## Chunk positions (`src/storage.rs`)

`ChunkPosition` is `[i8; 3]`; components are modelled as `Int` (every
constructed position stays in `[-128, 127]`). -/

/-- A chunk position: three `i8` components modelled as `Int`. -/
abbrev CPos := Int × Int × Int

/-- All three components lie in the `i8` range `[-128, 127]`. -/
def inRangeI8 (p : CPos) : Prop :=
  -128 ≤ p.1 ∧ p.1 ≤ 127 ∧ -128 ≤ p.2.1 ∧ p.2.1 ≤ 127 ∧ -128 ≤ p.2.2 ∧ p.2.2 ≤ 127

instance (p : CPos) : Decidable (inRangeI8 p) := by
  unfold inRangeI8; infer_instance

/-- Wrapping `i8` addition result: reduce into `[-128, 127]` modulo `256`.
This is the release-mode semantics of the `i8` `+`; a debug build aborts on
overflow instead. -/
def wrapI8 (v : Int) : Int := (v + 128) % 256 - 128

/-- `impl std::ops::Add<[i8; 3]> for ChunkPosition`: componentwise `i8`
addition (`self.0[k] + rhs[k]`), which wraps (release) or aborts (debug)
when the true sum leaves the `i8` range. -/
def chunkPosAdd (p q : CPos) : CPos :=
  (wrapI8 (p.1 + q.1), wrapI8 (p.2.1 + q.2.1), wrapI8 (p.2.2 + q.2.2))

/-- `ChunkPosition::get_translation`: `component as f32 * CHUNK_SIZE`
per axis (exact in `f32` for `i8` components). -/
def getTranslation (p : CPos) : ℚ × ℚ × ℚ :=
  ((p.1 : ℚ) * chunkSizeQ, (p.2.1 : ℚ) * chunkSizeQ, (p.2.2 : ℚ) * chunkSizeQ)

/-- The `as i8` saturating cast for an integral `f32`. -/
def satI8 (z : Int) : Int := max (-128) (min 127 z)

/-- `ChunkPosition::from_translation`: `None` unless every component lies in
the half-open range `[i8::MIN * CHUNK_SIZE, i8::MAX * CHUNK_SIZE)`
(Rust `Range::contains` is `start <= x && x < end`); otherwise round each
`component / CHUNK_SIZE` to the nearest integer and cast to `i8`. -/
def fromTranslation (q : ℚ × ℚ × ℚ) : Option CPos :=
  if q.1 < -128 * chunkSizeQ ∨ 127 * chunkSizeQ ≤ q.1 ∨
     q.2.1 < -128 * chunkSizeQ ∨ 127 * chunkSizeQ ≤ q.2.1 ∨
     q.2.2 < -128 * chunkSizeQ ∨ 127 * chunkSizeQ ≤ q.2.2 then none
  else
    some (satI8 (roundHalfAway (q.1 / chunkSizeQ)),
          satI8 (roundHalfAway (q.2.1 / chunkSizeQ)),
          satI8 (roundHalfAway (q.2.2 / chunkSizeQ)))

/-! ## The terrain editor (`src/edit.rs`)

`ChunkModifier` holds `modified: HashMap<ChunkPosition, ModifiedChunk>` and
`chunks: Vec<RawChunk>`.  The map is modelled as an association list (the
source checks for absence before `insert_unique_unchecked`, so keys are
unique); a `RawChunk` is a `List Nat` of raw voxel words.  The injected
`chunks_getter` resolves an `Entity` (an opaque `Nat`) to a `RawChunk`, and
the `ChunkMap` resource is a lookup function `CPos → Option Entity`. -/

/-- `ModifiedChunk`: the chunk's pre-existing entity (if any) and its index
into the `chunks` vector. -/
structure MEntry where
  entity : Option Nat
  index : Nat
  deriving DecidableEq

/-- `ChunkModifier`: the edit-session state. -/
structure Modifier where
  modified : List (CPos × MEntry)
  chunks : List (List Nat)
  deriving DecidableEq

/-- The empty `ChunkModifier` (its `Default`). -/
def emptyModifier : Modifier := ⟨[], []⟩

/-- `HashMap::get` on the association list modelling `modified`. -/
def mlookup (p : CPos) : List (CPos × MEntry) → Option MEntry
  | [] => none
  | e :: rest => if e.1 = p then some e.2 else mlookup p rest

/-- `RawChunk::air()`: `CHUNK_VOXELS` air voxels. -/
def rawChunkAir : List Nat := List.replicate chunkVoxels airRaw

/-- The `as u32` cast of an `i32`: wrap modulo `2^32`. -/
def i32ToU32 (v : Int) : Nat := (v % 4294967296).toNat

/-- `(x as f32 / SIZE as f32).floor() as i32` for an `i32` `x` and positive
integer `SIZE`: this is exactly `⌊x / SIZE⌋`, i.e. Euclidean division (see
`ediv_eq_floor_div`); `f32` rounding never moves the quotient across an
integer for the magnitudes reachable here. -/
def floorDivF32 (a b : Int) : Int := a / b

/-- The chunk coordinate that `ChunkModifier::get_voxel` derives for a voxel
offset: base position plus floor-division of each relative coordinate by
`CHUNK_SIDES`. -/
def chunkOfVoxel (cp : CPos) (c : Int × Int × Int) : CPos :=
  (cp.1 + floorDivF32 c.1 20, cp.2.1 + floorDivF32 c.2.1 20,
   cp.2.2 + floorDivF32 c.2.2 20)

/-- `CHUNK_SHAPE.linearize` (`ndshape` row-major, x fastest):
`x + 20*y + 400*z` in wrapping `u32` arithmetic. -/
def chunkLinearize (x y z : Nat) : Nat := (x + 20 * y + 400 * z) % 4294967296

/-- `ChunkModifier::get_voxel`: derive the target chunk coordinate in `i32`
arithmetic, return `none` (no voxel, state untouched) if any component
leaves the `i8` range; otherwise rebase the relative coordinates into the
chunk, materialize the chunk (reuse a session entry, else decompress via
the getter if the chunk map has an entity, else start all-air) and return
the index of the chunk and of the voxel inside it. -/
def getVoxelStep (m : Modifier) (cmap : CPos → Option Nat)
    (getter : Nat → List Nat) (cp : CPos) (rx ry rz : Int) :
    Modifier × Option (Nat × Nat) :=
  let pos := chunkOfVoxel cp (rx, ry, rz)
  if inRangeI8 pos then
    -- relative coordinates rebased by `offset * SIZE` with
    -- `offset = orig_pos - chunk_pos = -(floor quotient)`
    let rx2 := rx - floorDivF32 rx 20 * 20
    let ry2 := ry - floorDivF32 ry 20 * 20
    let rz2 := rz - floorDivF32 rz 20 * 20
    let vidx := chunkLinearize (i32ToU32 rx2) (i32ToU32 ry2) (i32ToU32 rz2)
    match mlookup pos m.modified with
    | some e => (m, some (e.index, vidx))
    | none =>
      let ent := cmap pos
      let data := match ent with
        | some e => getter e
        | none => rawChunkAir
      (⟨m.modified ++ [(pos, ⟨ent, m.chunks.length⟩)], m.chunks ++ [data]⟩,
       some (m.chunks.length, vidx))
  else (m, none)

/-- The editing `Mode`. -/
inductive EditMode where
  | add
  | remove
  deriving DecidableEq

/-- `smooth(a,b,k) = max(k - |a-b|, 0)^2 * 0.25 / k`. -/
def smooth (a b k : ℚ) : ℚ :=
  let h := max (k - |a - b|) 0
  h * h * (1 / 4) / k

/-- Polynomial smooth minimum. -/
def smin (a b k : ℚ) : ℚ := min a b - smooth a b k

/-- Polynomial smooth maximum. -/
def smax (a b k : ℚ) : ℚ := max a b + smooth a b k

/-- `f32::clamp(-1.0, 1.0)`. -/
def clampQ (x : ℚ) : ℚ := max (-1) (min x 1)

/-- A `SignedDistanceFunction`: the distance function together with its
axis-aligned bounding box. -/
structure SdfModel where
  fn : ℚ × ℚ × ℚ → ℚ
  aabbMin : ℚ × ℚ × ℚ
  aabbMax : ℚ × ℚ × ℚ

/-- `SphereSdf::aabb()`: `(Vec3::splat(-r), Vec3::splat(r))`. -/
def sphereAabbMin (r : ℚ) : ℚ × ℚ × ℚ := (-r, -r, -r)

/-- `SphereSdf::aabb()`, upper corner. -/
def sphereAabbMax (r : ℚ) : ℚ × ℚ × ℚ := (r, r, r)

/-- Fuel-indexed ascending integer range. -/
def intRangeGo (a : Int) : Nat → List Int
  | 0 => []
  | n + 1 => a :: intRangeGo (a + 1) n

/-- The integers of `[a, b)` in order, as iterated by `for x in a..b`. -/
def intRange (a b : Int) : List Int := intRangeGo a (b - a).toNat

/-- The voxel-index box iterated by `apply_sdf`, in loop order (x outer,
z inner). -/
def intRange3 (x0 x1 y0 y1 z0 z1 : Int) : List (Int × Int × Int) :=
  (intRange x0 x1).flatMap fun x =>
    (intRange y0 y1).flatMap fun y =>
      (intRange z0 z1).map fun z => (x, y, z)

/-- The voxel-index bounds of `apply_sdf`:
`aabb_min ↦ floor((aabb_min + relative_pos) / VOXEL_SIZE) - 1` and
`aabb_max ↦ ceil((aabb_max + relative_pos) / VOXEL_SIZE) + 1` per axis. -/
def boxCoords (mn mx rel : ℚ × ℚ × ℚ) : List (Int × Int × Int) :=
  intRange3
    (ratFloor ((mn.1 + rel.1) / voxelSizeQ) - 1)
    (ratCeil ((mx.1 + rel.1) / voxelSizeQ) + 1)
    (ratFloor ((mn.2.1 + rel.2.1) / voxelSizeQ) - 1)
    (ratCeil ((mx.2.1 + rel.2.1) / voxelSizeQ) + 1)
    (ratFloor ((mn.2.2 + rel.2.2) / voxelSizeQ) - 1)
    (ratCeil ((mx.2.2 + rel.2.2) / voxelSizeQ) + 1)

/-- One iteration of the `apply_sdf` triple loop at voxel index `c`: fetch
the voxel via `get_voxel` (skipping silently when it returns no voxel),
evaluate the SDF at the sample position `((c+1) * VOXEL_SIZE - relative_pos)`
clamped to `[-1, 1]`, blend (`smin` for Add, `smax` against the negated
value for Remove), clamp, and store back with `with_value_f32` (which
preserves the material).  The `getD 0` defaults are unreachable for the
in-range indices produced by `get_voxel`. -/
def editStep (cmap : CPos → Option Nat) (getter : Nat → List Nat) (cp : CPos)
    (s : SdfModel) (mode : EditMode) (k : ℚ) (rel : ℚ × ℚ × ℚ)
    (m : Modifier) (c : Int × Int × Int) : Modifier :=
  match getVoxelStep m cmap getter cp c.1 c.2.1 c.2.2 with
  | (m2, none) => m2
  | (m2, some (ci, vi)) =>
    let old := (m2.chunks.getD ci []).getD vi 0
    let cur := voxelToF32 old
    let nv := clampQ (s.fn
      (((c.1 : ℚ) + 1) * voxelSizeQ - rel.1,
       ((c.2.1 : ℚ) + 1) * voxelSizeQ - rel.2.1,
       ((c.2.2 : ℚ) + 1) * voxelSizeQ - rel.2.2))
    let blended := match mode with
      | EditMode.add => smin cur nv k
      | EditMode.remove => smax cur (-nv) k
    let newRaw := (withValueF32 old (clampQ blended)).getD 0
    ⟨m2.modified, m2.chunks.set ci ((m2.chunks.getD ci []).set vi newRaw)⟩

/-- `ChunkModifier::apply_sdf`: iterate the margin-expanded voxel box of the
SDF and apply `editStep` at every voxel index. -/
def applySdf (m : Modifier) (cmap : CPos → Option Nat)
    (getter : Nat → List Nat) (cp : CPos) (s : SdfModel) (mode : EditMode)
    (k : ℚ) (rel : ℚ × ℚ × ℚ) : Modifier :=
  (boxCoords s.aabbMin s.aabbMax rel).foldl
    (editStep cmap getter cp s mode k rel) m

/-- The chunk positions an edit session has materialized. -/
def modKeys (m : Modifier) : List CPos := m.modified.map Prod.fst

/-- The evolution of the materialized-key list at one voxel step: a new key
is appended exactly when the derived chunk coordinate is in the `i8` range
and not yet present. -/
def keyStep (ks : List CPos) (p : CPos) : List CPos :=
  if inRangeI8 p ∧ p ∉ ks then ks ++ [p] else ks

/-! ## The mesh extractor (`src/surface_nets.rs`) -/

/-- `RawChunk::get_voxel`: index by `CHUNK_SHAPE.linearize([x, y, z])`
(out-of-bounds indexing would panic in the source; the default `0` is
unreachable for dense buffers and in-range coordinates). -/
def rawGetVoxel (chunk : List Nat) (x y z : Nat) : Nat :=
  chunk.getD (chunkLinearize x y z) 0

/-- `SurroundingChunks::SHAPE.linearize` for the 3×3×3 neighborhood:
`x + 3*y + 9*z`. -/
def linearize27 (x y z : Nat) : Nat := x + 3 * y + 9 * z

/-- `SurroundingChunks::SHAPE.delinearize`. -/
def delinearize27 (i : Nat) : Nat × Nat × Nat := (i % 3, i / 3 % 3, i / 9)

/-- Per-axis neighbor selection of `SurroundingChunks::get_voxel`
(`LAST_CHUNK = CHUNK_SIDES + 1 = 21`): `0` for `v <= 0`, `2` for
`v >= 21`, else `1`. -/
def scAxisChunk (v : Int) : Nat :=
  if v ≤ 0 then 0 else if 21 ≤ v then 2 else 1

/-- Per-axis local coordinate of `SurroundingChunks::get_voxel`:
`CHUNK_SIDES - 1 + v` for `v <= 0`, `v - LAST_CHUNK` for `v >= 21`,
else `v - 1`, then cast `as u32`. -/
def scAxisLocal (v : Int) : Int :=
  if v ≤ 0 then 19 + v else if 21 ≤ v then v - 21 else v - 1

/-- `SurroundingChunks::get_voxel`: pick the neighbor slot per axis, return
air when that neighbor is absent, else sample the neighbor at the rebased
local coordinates. -/
def scGetVoxel (cs : List (Option (List Nat))) (x y z : Int) : Nat :=
  match cs.getD (linearize27 (scAxisChunk x) (scAxisChunk y) (scAxisChunk z)) none with
  | none => airRaw
  | some chunk =>
    rawGetVoxel chunk (i32ToU32 (scAxisLocal x)) (i32ToU32 (scAxisLocal y))
      (i32ToU32 (scAxisLocal z))

/-- The padded-grid sampling rule as the specification words it: coordinate
`0` reads layer `side - 1 = 19` of the `-1` neighbor, coordinates
`1..=side` read local coordinate `v - 1` of the center, coordinate
`side + 1 = 21` reads layer `0` of the `+1` neighbor; the three axes are
resolved independently and an absent neighbor reads as air. -/
def paddedSampleSpec (cs : List (Option (List Nat))) (x y z : Int) : Nat :=
  let axisChunk : Int → Nat := fun v => if v = 0 then 0 else if v = 21 then 2 else 1
  let axisLocal : Int → Nat := fun v =>
    if v = 0 then 19 else if v = 21 then 0 else (v - 1).toNat
  match cs.getD (linearize27 (axisChunk x) (axisChunk y) (axisChunk z)) none with
  | none => airRaw
  | some chunk => rawGetVoxel chunk (axisLocal x) (axisLocal y) (axisLocal z)

/-- The neighborhood gathering of `generate_chunk` for slot `i` of the 27:
`desired_pos = chunk_pos + [-1 + x, -1 + y, -1 + z]` with the offsets from
`SHAPE.delinearize(i)` and the addition performed by the `i8` `Add` impl;
the slot stays empty unless the chunk map has an entity there and the query
yields its data, which is then expanded. -/
def gatherSlot (cmap : CPos → Option Nat) (query : Nat → Option (List Nat))
    (cp : CPos) (i : Nat) : Option (List Nat) :=
  let o := delinearize27 i
  let desired := chunkPosAdd cp ((o.1 : Int) - 1, (o.2.1 : Int) - 1, (o.2.2 : Int) - 1)
  match cmap desired with
  | none => none
  | some e =>
    match query e with
    | none => none
    | some cd => some (expand cd)

/-! ## Concrete instances used by counterexamples and witnesses -/

/-- A chunk map whose only chunk sits at the extreme coordinate
`(-128, 0, 0)` (entity `0`). -/
def cmapWrapDemo : CPos → Option Nat :=
  fun p => if p = ((-128 : Int), (0 : Int), (0 : Int)) then some 0 else none

/-- A query that resolves every entity to an empty compressed stream. -/
def queryEmptyChunk : Nat → Option (List Nat) := fun _ => some []

/-- A chunk map with no chunks at all. -/
def cmapNone : CPos → Option Nat := fun _ => none

/-- A getter that never finds data. -/
def getterEmpty : Nat → List Nat := fun _ => []

/-- An `SdfModel` with the sphere-of-radius-2 bounding box and an arbitrary
fixed distance function (the materialized chunks do not depend on it). -/
def sdfSphere2Demo : SdfModel :=
  ⟨fun _ => 0, sphereAabbMin 2, sphereAabbMax 2⟩

/-! ## Numeric bridges -/

theorem ratFloor_eq_floor (q : ℚ) : ratFloor q = ⌊q⌋ := (Rat.floor_def).symm

theorem ratCeil_eq_ceil (q : ℚ) : ratCeil q = ⌈q⌉ := by
  rw [ratCeil, ratFloor_eq_floor, Int.floor_neg]; ring

/-- The editor's floor-division agrees with the mathematical
`⌊a / b⌋` for the positive divisors used in the source. -/
theorem floorDivF32_eq_floor (a : Int) (b : Nat) :
    floorDivF32 a b = ⌊(a : ℚ) / (b : ℚ)⌋ := by
  rw [floorDivF32, Rat.floor_intCast_div_natCast]

theorem roundHalfAway_intCast (n : Int) : roundHalfAway (n : ℚ) = n := by
  have hhalf : ⌊(1 / 2 : ℚ)⌋ = 0 := by norm_num
  unfold roundHalfAway
  split
  · rw [ratFloor_eq_floor, show (-(n : ℚ) + 1 / 2) = (1 / 2 : ℚ) + (-n : Int) by
      push_cast; ring, Int.floor_add_int, hhalf]
    ring
  · rw [ratFloor_eq_floor, show ((n : ℚ) + 1 / 2) = (1 / 2 : ℚ) + (n : Int) by
      ring, Int.floor_add_int, hhalf]
    ring

/-! ## C9: the `Voxel::new` range contract -/

/-- **C9.** `Voxel::new(material, value)` panics exactly when the material
exceeds 6 bits or the distance code exceeds 10 bits; every in-range pair
constructs successfully and `material()` / `value()` read back exactly the
arguments. -/
theorem voxel_new_range_contract (m v : Nat) :
    (voxelNew m v = none ↔ (maxMaterial < m ∨ maxValue < v)) ∧
    (m ≤ maxMaterial → v ≤ maxValue →
      voxelNew m v = some (m * 1024 + v) ∧
      voxelMaterial (m * 1024 + v) = m ∧ voxelValue (m * 1024 + v) = v) := by
  constructor
  · unfold voxelNew maxMaterial maxValue
    split_ifs with h1 h2 <;> simp <;> omega
  · intro hm hv
    unfold voxelNew voxelMaterial voxelValue maxMaterial maxValue at *
    rw [if_neg (by omega), if_neg (by omega)]
    refine ⟨by rw [Nat.mod_eq_of_lt (by omega)], by omega, by omega⟩

/-- Witness for C9 at the concrete in-range pair `(5, 700)` and the
out-of-range pair `(64, 0)`. -/
theorem voxel_new_range_contract_witness :
    (5 ≤ maxMaterial ∧ 700 ≤ maxValue) ∧
    voxelNew 5 700 = some (5 * 1024 + 700) ∧
    voxelMaterial (5 * 1024 + 700) = 5 ∧ voxelValue (5 * 1024 + 700) = 700 ∧
    (voxelNew 64 0 = none ↔ (maxMaterial < 64 ∨ maxValue < 0)) := by
  have h1 := (voxel_new_range_contract 5 700).2 (by decide) (by decide)
  exact ⟨⟨by decide, by decide⟩, h1.1, h1.2.1, h1.2.2,
    (voxel_new_range_contract 64 0).1⟩

/-! ## C7: codec extremes -/

/-- **C7.** The float mapping is exact at both extremes in both directions:
distance code `0` reads as `1.0` and code `1023` as `-1.0`; conversely
`with_value_f32` packs `1.0` to code `0` and `-1.0` to code `1023`,
preserving the material, for every 16-bit voxel word. -/
theorem voxel_codec_extremes (w : Nat) (hw : w < 65536) :
    (voxelValue w = 0 → voxelToF32 w = 1) ∧
    (voxelValue w = maxValue → voxelToF32 w = -1) ∧
    withValueF32 w 1 = some (voxelMaterial w * 1024) ∧
    withValueF32 w (-1) = some (voxelMaterial w * 1024 + 1023) ∧
    voxelValue (voxelMaterial w * 1024) = 0 ∧
    voxelMaterial (voxelMaterial w * 1024) = voxelMaterial w ∧
    voxelValue (voxelMaterial w * 1024 + 1023) = maxValue ∧
    voxelMaterial (voxelMaterial w * 1024 + 1023) = voxelMaterial w := by
  have hmat : voxelMaterial w ≤ 63 := by unfold voxelMaterial; omega
  have hthr : thresholdQ = 1023 / 2 := by norm_num [thresholdQ, maxValue]
  have hr0 : roundHalfAway (thresholdQ - 1 * thresholdQ) = 0 := by
    rw [show thresholdQ - 1 * thresholdQ = ((0 : Int) : ℚ) by push_cast; ring,
      roundHalfAway_intCast]
  have hr1 : roundHalfAway (thresholdQ - (-1) * thresholdQ) = 1023 := by
    rw [show thresholdQ - (-1) * thresholdQ = ((1023 : Int) : ℚ) by
      rw [hthr]; push_cast; ring, roundHalfAway_intCast]
  refine ⟨?_, ?_, ?_, ?_, by unfold voxelValue; omega,
    by unfold voxelMaterial at *; omega, by unfold voxelValue maxValue; omega,
    by unfold voxelMaterial at *; omega⟩
  · intro h
    rw [voxelToF32, h, hthr]
    norm_num
  · intro h
    rw [voxelToF32, h, hthr]
    norm_num [maxValue]
  · rw [withValueF32, hr0, show satU16 0 = 0 by decide, voxelNew,
      if_neg (by norm_num [maxValue]), if_neg (by unfold maxMaterial; omega)]
    norm_num
  · rw [withValueF32, hr1, show satU16 1023 = 1023 by decide, voxelNew,
      if_neg (by norm_num [maxValue]), if_neg (by unfold maxMaterial; omega)]

/-- Witness for C7 at the raw word `2048` (material 2, code 0) and at
`2048 + 1023` (material 2, code 1023). -/
theorem voxel_codec_extremes_witness :
    voxelToF32 2048 = 1 ∧ voxelToF32 (2048 + 1023) = -1 ∧
    withValueF32 2048 1 = some (voxelMaterial 2048 * 1024) ∧
    withValueF32 2048 (-1) = some (voxelMaterial 2048 * 1024 + 1023) := by
  refine ⟨(voxel_codec_extremes 2048 (by decide)).1 (by decide),
    (voxel_codec_extremes (2048 + 1023) (by decide)).2.1 (by decide),
    (voxel_codec_extremes 2048 (by decide)).2.2.1,
    (voxel_codec_extremes 2048 (by decide)).2.2.2.1⟩

/-! ## C10: translation round-trip of `ChunkPosition` -/

/-- Per-axis facts for `from_translation` on a translated component:
for `c ∈ [-128, 126]` both range checks pass and the rounded quotient
recovers `c`. -/
theorem fromTranslation_axis (c : Int) (h1 : -128 ≤ c) (h2 : c ≤ 126) :
    ¬ ((c : ℚ) * chunkSizeQ < -128 * chunkSizeQ) ∧
    ¬ (127 * chunkSizeQ ≤ (c : ℚ) * chunkSizeQ) ∧
    satI8 (roundHalfAway ((c : ℚ) * chunkSizeQ / chunkSizeQ)) = c := by
  have hc : chunkSizeQ = 15 := by norm_num [chunkSizeQ, chunkSides, voxelSizeQ]
  have hcq1 : (-128 : ℚ) ≤ (c : ℚ) := by exact_mod_cast h1
  have hcq2 : (c : ℚ) ≤ 126 := by exact_mod_cast h2
  rw [hc]
  refine ⟨by nlinarith, by nlinarith, ?_⟩
  rw [show (c : ℚ) * 15 / 15 = (c : ℚ) by field_simp, roundHalfAway_intCast]
  unfold satI8
  omega

/-- **C10.** `from_translation ∘ get_translation` is the identity on every
chunk position whose components lie in `[i8::MIN, i8::MAX - 1]`, but
returns `None` whenever a component equals `i8::MAX = 127`, because the
validity range of `from_translation` is half-open and excludes
`127 * CHUNK_SIZE` at the top. -/
theorem chunk_position_translation_roundtrip (p : CPos)
    (hb : inRangeI8 p) :
    ((p.1 ≤ 126 ∧ p.2.1 ≤ 126 ∧ p.2.2 ≤ 126) →
      fromTranslation (getTranslation p) = some p) ∧
    ((p.1 = 127 ∨ p.2.1 = 127 ∨ p.2.2 = 127) →
      fromTranslation (getTranslation p) = none) := by
  obtain ⟨hx1, hx2, hy1, hy2, hz1, hz2⟩ := hb
  constructor
  · rintro ⟨ha, hb, hc⟩
    obtain ⟨ha1, ha2, ha3⟩ := fromTranslation_axis p.1 hx1 ha
    obtain ⟨hb1, hb2, hb3⟩ := fromTranslation_axis p.2.1 hy1 hb
    obtain ⟨hc1, hc2, hc3⟩ := fromTranslation_axis p.2.2 hz1 hc
    unfold fromTranslation getTranslation
    split_ifs with hcon
    · exfalso
      rcases hcon with h | h | h | h | h | h
      exacts [ha1 h, ha2 h, hb1 h, hb2 h, hc1 h, hc2 h]
    · simp only
      rw [ha3, hb3, hc3]
  · intro hone
    unfold fromTranslation getTranslation
    rw [if_pos]
    rcases hone with h | h | h
    · exact Or.inr (Or.inl (by simp only; rw [h]; norm_num))
    · exact Or.inr (Or.inr (Or.inr (Or.inl (by simp only; rw [h]; norm_num))))
    · exact Or.inr (Or.inr (Or.inr (Or.inr (Or.inr
        (by simp only; rw [h]; norm_num)))))

/-- Witness for C10: round-trip at `(3, -5, 126)` and rejection at
`(127, 0, 0)`. -/
theorem chunk_position_translation_roundtrip_witness :
    fromTranslation (getTranslation (3, -5, 126)) = some (3, -5, 126) ∧
    fromTranslation (getTranslation (127, 0, 0)) = none := by
  refine ⟨(chunk_position_translation_roundtrip (3, -5, 126) (by decide)).1
    (by refine ⟨by decide, by decide, by decide⟩),
    (chunk_position_translation_roundtrip (127, 0, 0) (by decide)).2
    (Or.inl (by decide))⟩

/-! ## C6: the padded sampling grid of the mesh extractor -/

theorem scAxisChunk_eq (v : Int) (h0 : 0 ≤ v) (h21 : v ≤ 21) :
    scAxisChunk v = (if v = 0 then 0 else if v = 21 then 2 else 1) := by
  unfold scAxisChunk
  split_ifs <;> omega

theorem scAxisLocal_eq (v : Int) (h0 : 0 ≤ v) (h21 : v ≤ 21) :
    i32ToU32 (scAxisLocal v) =
      (if v = 0 then 19 else if v = 21 then 0 else (v - 1).toNat) := by
  unfold scAxisLocal i32ToU32
  split_ifs <;> omega

/-- **C6.** For every padded-grid coordinate (each axis in `0..=21`) and
every configuration of present or absent neighbors,
`SurroundingChunks::get_voxel` samples exactly as the specification says:
coordinate `0` from layer `19` of the `-1` neighbor, `1..=20` from local
coordinate `v - 1` of the center, `21` from layer `0` of the `+1` neighbor,
with the three axes resolved independently and absent neighbors read as
air. -/
theorem surrounding_get_voxel_mapping (cs : List (Option (List Nat)))
    (x y z : Int) (hx0 : 0 ≤ x) (hx1 : x ≤ 21) (hy0 : 0 ≤ y) (hy1 : y ≤ 21)
    (hz0 : 0 ≤ z) (hz1 : z ≤ 21) :
    scGetVoxel cs x y z = paddedSampleSpec cs x y z := by
  unfold scGetVoxel paddedSampleSpec
  simp only [scAxisChunk_eq x hx0 hx1, scAxisChunk_eq y hy0 hy1,
    scAxisChunk_eq z hz0 hz1, scAxisLocal_eq x hx0 hx1,
    scAxisLocal_eq y hy0 hy1, scAxisLocal_eq z hz0 hz1]

/-- Witness for C6 at a mixed coordinate `(0, 5, 21)` with one present
neighbor configuration. -/
theorem surrounding_get_voxel_mapping_witness :
    scGetVoxel [some [7], none, some [9]] 0 5 21 =
      paddedSampleSpec [some [7], none, some [9]] 0 5 21 :=
  surrounding_get_voxel_mapping [some [7], none, some [9]] 0 5 21
    (by decide) (by decide) (by decide) (by decide) (by decide) (by decide)

/-! ## Run-decomposition lemmas -/

theorem leadCount_cons (v w : Nat) (rest : List Nat) :
    leadCount v (w :: rest) = if w = v then leadCount v rest + 1 else 0 := rfl

theorem dropRun_cons (v w : Nat) (rest : List Nat) :
    dropRun v (w :: rest) = if w = v then dropRun v rest else w :: rest := rfl

theorem runsGo_eq (rest : List Nat) : ∀ v c,
    runsGo v c rest = (v, c + leadCount v rest) :: runs (dropRun v rest) := by
  induction rest with
  | nil => intro v c; simp [runsGo, leadCount, dropRun, runs]
  | cons w r ih =>
    intro v c
    by_cases h : w = v
    · subst h
      rw [runsGo, if_pos rfl, ih w (c + 1), leadCount_cons, if_pos rfl,
        dropRun_cons, if_pos rfl, show c + 1 + leadCount w r
          = c + (leadCount w r + 1) by omega]
    · simp [runsGo, leadCount_cons, dropRun_cons, h, runs]

theorem runs_cons (v : Nat) (rest : List Nat) :
    runs (v :: rest) = (v, 1 + leadCount v rest) :: runs (dropRun v rest) := by
  rw [runs, runsGo_eq]

/-- The head run length of a cons is bounded whenever all runs are. -/
theorem runsBounded_head (v : Nat) (rest : List Nat)
    (h : RunsBounded (v :: rest)) : 1 + leadCount v rest ≤ 65535 := by
  have := h (v, 1 + leadCount v rest) (by rw [runs_cons]; exact List.mem_cons_self _ _)
  exact this

/-- Bounded runs restrict to the part after the head run. -/
theorem runsBounded_dropRun (v : Nat) (rest : List Nat)
    (h : RunsBounded (v :: rest)) : RunsBounded (dropRun v rest) := by
  intro p hp
  exact h p (by rw [runs_cons]; exact List.mem_cons_of_mem _ hp)

/-! ## Decoder facts -/

theorem expand_nil : expand [] = [] := rfl

theorem expand_one (v : Nat) : expand [v] = [v] := rfl

theorem expand_triple (v n : Nat) (t : List Nat) :
    expand (v :: v :: n :: t) = List.replicate n v ++ expand t := by
  simp [expand]

theorem expand_cons_cons_ne (v w : Nat) (t : List Nat) (h : w ≠ v) :
    expand (v :: w :: t) = v :: expand (w :: t) := by
  cases t with
  | nil => simp [expand]
  | cons a t2 => simp [expand, h]

/-! ## The round trip (C1) -/

/-- Core induction: expanding the literal plus the continuation of a run in
progress (`c` copies of `v` seen, `c ≥ 1`) recovers the `c` copies followed
by the unencoded remainder — provided the current run and every later run
fit the 16-bit counter. -/
theorem expand_encodeGo (rest : List Nat) : ∀ v c, 1 ≤ c →
    c + leadCount v rest ≤ 65535 → RunsBounded (dropRun v rest) →
    expand (v :: encodeGo v c rest) = List.replicate c v ++ rest := by
  induction rest with
  | nil =>
    intro v c hc hbound _
    simp only [leadCount, Nat.add_zero] at hbound
    by_cases h1 : 1 < c
    · rw [encodeGo, flushRun, if_pos h1, expand_triple, expand_nil]
    · have : c = 1 := by omega
      subst this
      simp [encodeGo, flushRun, expand_one]
  | cons w r ih =>
    intro v c hc hbound hrb
    by_cases h : w = v
    · subst h
      rw [leadCount_cons, if_pos rfl] at hbound
      rw [dropRun_cons, if_pos rfl] at hrb
      rw [encodeGo, if_pos rfl, Nat.mod_eq_of_lt (by omega)]
      rw [ih w (c + 1) (by omega) (by omega) hrb]
      rw [List.replicate_succ' c w]  -- replicate (c+1) = replicate c ++ [w]
      simp
    · rw [leadCount_cons, if_neg h] at hbound
      rw [dropRun_cons, if_neg h] at hrb
      have hhead : 1 + leadCount w r ≤ 65535 := runsBounded_head w r hrb
      have htail : RunsBounded (dropRun w r) := runsBounded_dropRun w r hrb
      have hinner := ih w 1 (by omega) (by omega) htail
      rw [encodeGo, if_neg h]
      by_cases h1 : 1 < c
      · rw [flushRun, if_pos h1]
        show expand (v :: v :: c :: w :: encodeGo w 1 r) = _
        rw [expand_triple, hinner]
        simp
      · have : c = 1 := by omega
        subst this
        rw [flushRun, if_neg h1, List.nil_append,
          expand_cons_cons_ne v w _ h, hinner]
        simp

/-- **C1 (amended).** Expanding the run-length encoding reproduces the
original buffer for every dense buffer in which each maximal run of equal
voxels is at most `65535` long — in particular for every buffer of the
fixed `20³ = 8000` chunk volume.  (A single run of length `≥ 2^16`
overflows the encoder's 16-bit run counter and breaks the round trip, see
the counterexample.) -/
theorem rle_roundtrip_bounded (l : List Nat) (h : RunsBounded l) :
    expand (encode l) = l := by
  cases l with
  | nil => rfl
  | cons v rest =>
    rw [encode, expand_encodeGo rest v 1 (by omega)
      (by have := runsBounded_head v rest h; omega)
      (runsBounded_dropRun v rest h)]
    simp

/-- Witness for C1 at the concrete irregular buffer `[5, 5, 5, 3]`. -/
theorem rle_roundtrip_bounded_witness :
    RunsBounded [5, 5, 5, 3] ∧ expand (encode [5, 5, 5, 3]) = [5, 5, 5, 3] :=
  ⟨by decide, rle_roundtrip_bounded [5, 5, 5, 3] (by decide)⟩

/-- Encoding a pure run: the final (wrapped) counter is `(c + j) % 2^16`. -/
theorem encodeGo_replicate (j : Nat) : ∀ v c, c < 65536 →
    encodeGo v c (List.replicate j v) = flushRun v ((c + j) % 65536) := by
  induction j with
  | zero =>
    intro v c hc
    simp [encodeGo, Nat.mod_eq_of_lt hc]
  | succ n ih =>
    intro v c hc
    rw [List.replicate_succ, encodeGo, if_pos rfl,
      ih v ((c + 1) % 65536) (Nat.mod_lt _ (by omega))]
    congr 1
    rw [Nat.mod_add_mod]
    congr 1
    omega

/-- **C1 counterexample.** A buffer that is a single run of `2^16` air
voxels: the run counter wraps to `0`, the encoder emits the lone literal
`[0]`, and the round trip fails. -/
theorem rle_roundtrip_overflow_cex :
    expand (encode (List.replicate 65536 airRaw)) ≠ List.replicate 65536 airRaw := by
  have hrep : List.replicate 65536 airRaw = airRaw :: List.replicate 65535 airRaw := by
    rw [show (65536 : Nat) = 65535 + 1 from rfl, List.replicate_succ]
  have he : encode (List.replicate 65536 airRaw) = [airRaw] := by
    rw [hrep, encode, encodeGo_replicate 65535 airRaw 1 (by omega)]
    norm_num [flushRun]
  rw [he, expand_one]
  intro hcontra
  have hlen := congrArg List.length hcontra
  rw [List.length_singleton, List.length_replicate] at hlen
  omega

/-! ## All-air compactness (C8) -/

/-- Encoding `n` equal words for `2 ≤ n ≤ 65535` yields exactly the triple
`[v, v, n]`. -/
theorem encode_replicate_triple (v n : Nat) (h2 : 2 ≤ n) (h65535 : n ≤ 65535) :
    encode (List.replicate n v) = [v, v, n] := by
  obtain ⟨j, rfl⟩ : ∃ j, n = j + 1 := ⟨n - 1, by omega⟩
  rw [List.replicate_succ, encode, encodeGo_replicate j v 1 (by omega),
    show (1 + j) % 65536 = j + 1 by omega, flushRun, if_pos (by omega)]

/-- **C8 (amended).** For every dense all-air buffer of `n` voxels with
`2 ≤ n ≤ 65535` — in particular the fixed chunk volume `8000` — the encoder
produces exactly the three words `[air, air, n]`, and for the fixed volume
this equals the stream built directly by `ChunkData::air()`.  (For `n = 0`
or `n = 1` the encoder produces `0` resp. `1` word instead, see the
counterexample.) -/
theorem encode_all_air_amended (n : Nat) (h2 : 2 ≤ n) (h65535 : n ≤ 65535) :
    encode (List.replicate n airRaw) = [airRaw, airRaw, n] ∧
    encode (List.replicate chunkVoxels airRaw) = chunkDataAir := by
  refine ⟨encode_replicate_triple airRaw n h2 h65535, ?_⟩
  rw [show chunkVoxels = 8000 by norm_num [chunkVoxels, chunkSides],
    encode_replicate_triple airRaw 8000 (by omega) (by omega)]
  norm_num [chunkDataAir, chunkVoxels, chunkSides]

/-- Witness for C8 at `n = 4`. -/
theorem encode_all_air_amended_witness :
    encode (List.replicate 4 airRaw) = [airRaw, airRaw, 4] ∧
    encode (List.replicate chunkVoxels airRaw) = chunkDataAir :=
  encode_all_air_amended 4 (by omega) (by omega)

/-- **C8 counterexample.** An all-air buffer of a single voxel encodes to
the single word `[air]`, not to the three words `[air, air, 1]`. -/
theorem encode_all_air_cex :
    encode (List.replicate 1 airRaw) ≠ [airRaw, airRaw, 1] := by decide

/-! ## The stream block structure and the adjacency contract (C3) -/

/-- A literal starting a run followed by the flush of that run is exactly
the run's block. -/
theorem cons_flushRun_eq_blockOf (w j : Nat) :
    w :: flushRun w (j % 65536) = blockOf (w, j) := by
  unfold blockOf flushRun
  split_ifs <;> rfl

/-- The encoder continuation decomposes into the flush of the current run
followed by the blocks of the remaining runs. -/
theorem encodeGo_blocks (rest : List Nat) : ∀ v c, c < 65536 →
    encodeGo v c rest =
      flushRun v ((c + leadCount v rest) % 65536) ++
        encodeRuns (runs (dropRun v rest)) := by
  induction rest with
  | nil =>
    intro v c hc
    simp [encodeGo, leadCount, dropRun, runs, encodeRuns,
      Nat.mod_eq_of_lt hc]
  | cons w r ih =>
    intro v c hc
    by_cases h : w = v
    · subst h
      rw [encodeGo, if_pos rfl, ih w ((c + 1) % 65536) (Nat.mod_lt _ (by omega)),
        leadCount_cons, if_pos rfl, dropRun_cons, if_pos rfl]
      congr 2
      rw [Nat.mod_add_mod]
      congr 1
      omega
    · rw [encodeGo, if_neg h, ih w 1 (by omega), leadCount_cons, if_neg h,
        dropRun_cons, if_neg h, Nat.add_zero, Nat.mod_eq_of_lt hc, runs_cons,
        encodeRuns, ← cons_flushRun_eq_blockOf]
      simp

/-- The encoder output is exactly the concatenation of the per-run blocks. -/
theorem encode_blocks (l : List Nat) : encode l = encodeRuns (runs l) := by
  cases l with
  | nil => rfl
  | cons v rest =>
    rw [encode, encodeGo_blocks rest v 1 (by omega), ← List.cons_append,
      cons_flushRun_eq_blockOf, runs_cons, encodeRuns]

/-- `runsGo` always produces a first pair keyed by its current value. -/
theorem runsGo_head (rest : List Nat) : ∀ v c,
    ∃ c2 t, runsGo v c rest = (v, c2) :: t := by
  induction rest with
  | nil => intro v c; exact ⟨c, [], rfl⟩
  | cons w r ih =>
    intro v c
    by_cases h : w = v
    · subst h
      rw [runsGo, if_pos rfl]
      exact ih w (c + 1)
    · exact ⟨c, runsGo w 1 r, by rw [runsGo, if_neg h]⟩

theorem runsGo_adjDistinct (rest : List Nat) : ∀ v c,
    adjValuesDistinct (runsGo v c rest) = true := by
  induction rest with
  | nil => intro v c; rfl
  | cons w r ih =>
    intro v c
    by_cases h : w = v
    · subst h
      rw [runsGo, if_pos rfl]
      exact ih w (c + 1)
    · rw [runsGo, if_neg h]
      obtain ⟨c2, t, ht⟩ := runsGo_head r w 1
      rw [ht, adjValuesDistinct, ← ht, ih w 1, Bool.and_true,
        bne_iff_ne]
      exact fun hvw => h hvw.symm

/-- Adjacent maximal runs always carry distinct values. -/
theorem runs_adjDistinct (l : List Nat) : adjValuesDistinct (runs l) = true := by
  cases l with
  | nil => rfl
  | cons v rest => exact runsGo_adjDistinct rest v 1

/-- **C3 (amended).** Every encoder-produced stream is the concatenation of
per-run blocks, each a lone literal `[v]` or a triple `[v, v, count]`, with
adjacent runs carrying distinct values.  Hence no two adjacent equal
*literals* occur outside a triple.  (The stated stronger property — that
*any* two adjacent equal words are the first two words of a triple — fails:
a triple's trailing count word may equal the next literal, see the
counterexample.) -/
theorem rle_stream_blocks (l : List Nat) :
    encode l = encodeRuns (runs l) ∧
    adjValuesDistinct (runs l) = true ∧
    (∀ p ∈ runs l, blockOf p = [p.1] ∨ blockOf p = [p.1, p.1, p.2 % 65536]) := by
  refine ⟨encode_blocks l, runs_adjDistinct l, ?_⟩
  intro p _
  unfold blockOf
  split_ifs <;> simp

/-- Witness for C3 at the buffer `[5, 5, 5, 3]` and its first run `(5, 3)`. -/
theorem rle_stream_blocks_witness :
    encode [5, 5, 5, 3] = encodeRuns (runs [5, 5, 5, 3]) ∧
    adjValuesDistinct (runs [5, 5, 5, 3]) = true ∧
    (blockOf (5, 3) = [5] ∨ blockOf (5, 3) = [5, 5, 3 % 65536]) := by
  have h := rle_stream_blocks [5, 5, 5, 3]
  exact ⟨h.1, h.2.1, h.2.2 (5, 3) (by decide)⟩

/-- **C3 counterexample.** For the buffer `[5, 5, 5, 3]` the stream is
`[5, 5, 3, 3]`: the words at offsets 2 and 3 are adjacent and equal, yet
offset 2 starts no triple (it is the count word of the triple `[5, 5, 3]`,
followed by the literal `3`), refuting the claim as stated. -/
theorem rle_adjacent_words_cex : ¬ NoAdjacentEqualExceptTriple [5, 5, 5, 3] := by
  decide

/-! ## Association-list lemmas for the session map -/

theorem mlookup_none_iff (p : CPos) (l : List (CPos × MEntry)) :
    mlookup p l = none ↔ p ∉ l.map Prod.fst := by
  induction l with
  | nil => simp [mlookup]
  | cons e rest ih =>
    by_cases h : e.1 = p
    · simp [mlookup, h]
    · rw [mlookup, if_neg h, ih]
      constructor
      · intro hn
        simp only [List.map_cons, List.mem_cons, not_or]
        exact ⟨fun hc => h hc.symm, hn⟩
      · intro hn hmem
        exact hn (by simp only [List.map_cons, List.mem_cons]; exact Or.inr hmem)

theorem mlookup_some_mem (p : CPos) (l : List (CPos × MEntry)) (e : MEntry)
    (h : mlookup p l = some e) : p ∈ l.map Prod.fst := by
  by_contra hc
  rw [← mlookup_none_iff] at hc
  rw [h] at hc
  exact Option.noConfusion hc

/-! ## Key evolution of the edit session -/

theorem editStep_modKeys (cmap : CPos → Option Nat) (getter : Nat → List Nat)
    (cp : CPos) (s : SdfModel) (mode : EditMode) (k : ℚ) (rel : ℚ × ℚ × ℚ)
    (m : Modifier) (c : Int × Int × Int) :
    modKeys (editStep cmap getter cp s mode k rel m c) =
      keyStep (modKeys m) (chunkOfVoxel cp (c.1, c.2.1, c.2.2)) := by
  unfold editStep getVoxelStep keyStep
  by_cases hin : inRangeI8 (chunkOfVoxel cp (c.1, c.2.1, c.2.2))
  · rw [if_pos hin]
    cases hl : mlookup (chunkOfVoxel cp (c.1, c.2.1, c.2.2)) m.modified with
    | some e =>
      rw [if_neg (fun hcon => hcon.2 (mlookup_some_mem _ _ _ hl))]
      simp only [hl]
      rfl
    | none =>
      rw [if_pos ⟨hin, (mlookup_none_iff _ _).mp hl⟩]
      simp only [hl]
      simp [modKeys]
  · rw [if_neg hin, if_neg (fun hcon => hin hcon.1)]

theorem foldl_editStep_modKeys (cmap : CPos → Option Nat)
    (getter : Nat → List Nat) (cp : CPos) (s : SdfModel) (mode : EditMode)
    (k : ℚ) (rel : ℚ × ℚ × ℚ) (cs : List (Int × Int × Int)) : ∀ m : Modifier,
    modKeys (cs.foldl (editStep cmap getter cp s mode k rel) m) =
      cs.foldl (fun ks c => keyStep ks (chunkOfVoxel cp (c.1, c.2.1, c.2.2)))
        (modKeys m) := by
  induction cs with
  | nil => intro m; rfl
  | cons a t ih =>
    intro m
    rw [List.foldl_cons, List.foldl_cons, ih, editStep_modKeys]

theorem mem_keyStep (ks : List CPos) (q p : CPos) :
    p ∈ keyStep ks q ↔ p ∈ ks ∨ (inRangeI8 q ∧ p = q) := by
  unfold keyStep
  split_ifs with h
  · simp only [List.mem_append, List.mem_singleton]
    constructor
    · rintro (hp | rfl)
      · exact Or.inl hp
      · exact Or.inr ⟨h.1, rfl⟩
    · rintro (hp | ⟨_, rfl⟩)
      · exact Or.inl hp
      · exact Or.inr rfl
  · constructor
    · exact Or.inl
    · rintro (hp | ⟨hq, rfl⟩)
      · exact hp
      · by_cases hmem : p ∈ ks
        · exact hmem
        · exact absurd ⟨hq, hmem⟩ h

theorem mem_foldl_keyStep (cp : CPos) (cs : List (Int × Int × Int)) :
    ∀ (ks : List CPos) (p : CPos),
    p ∈ cs.foldl (fun ks c => keyStep ks (chunkOfVoxel cp (c.1, c.2.1, c.2.2))) ks ↔
      p ∈ ks ∨ ∃ c ∈ cs, inRangeI8 (chunkOfVoxel cp c) ∧ p = chunkOfVoxel cp c := by
  induction cs with
  | nil => intro ks p; simp
  | cons a t ih =>
    intro ks p
    rw [List.foldl_cons, ih, mem_keyStep]
    constructor
    · rintro ((hp | hq) | ⟨c, hc, hh⟩)
      · exact Or.inl hp
      · exact Or.inr ⟨a, List.mem_cons_self _ _, hq.1, hq.2⟩
      · exact Or.inr ⟨c, List.mem_cons_of_mem _ hc, hh⟩
    · rintro (hp | ⟨c, hc, hh⟩)
      · exact Or.inl (Or.inl hp)
      · rcases List.mem_cons.mp hc with rfl | hct
        · exact Or.inl (Or.inr hh)
        · exact Or.inr ⟨c, hct, hh⟩

theorem nodup_foldl_keyStep (cp : CPos) (cs : List (Int × Int × Int)) :
    ∀ ks : List CPos, ks.Nodup →
    (cs.foldl (fun ks c => keyStep ks (chunkOfVoxel cp (c.1, c.2.1, c.2.2))) ks).Nodup := by
  induction cs with
  | nil => intro ks h; exact h
  | cons a t ih =>
    intro ks h
    rw [List.foldl_cons]
    refine ih _ ?_
    unfold keyStep
    split_ifs with hc
    · simpa [List.nodup_append] using ⟨h, hc.2⟩
    · exact h

/-! ## The voxel box -/

theorem mem_intRangeGo (n : Nat) : ∀ (a x : Int),
    x ∈ intRangeGo a n ↔ a ≤ x ∧ x < a + n := by
  induction n with
  | zero => intro a x; simp [intRangeGo]
  | succ j ih =>
    intro a x
    rw [intRangeGo, List.mem_cons, ih (a + 1) x]
    constructor
    · rintro (rfl | ⟨h1, h2⟩) <;> constructor <;> omega
    · rintro ⟨h1, h2⟩
      by_cases hx : x = a
      · exact Or.inl hx
      · exact Or.inr ⟨by omega, by omega⟩

theorem mem_intRange (a b x : Int) : x ∈ intRange a b ↔ a ≤ x ∧ x < b := by
  rw [intRange, mem_intRangeGo]
  omega

theorem mem_intRange3 (x0 x1 y0 y1 z0 z1 : Int) (c : Int × Int × Int) :
    c ∈ intRange3 x0 x1 y0 y1 z0 z1 ↔
      (x0 ≤ c.1 ∧ c.1 < x1) ∧ (y0 ≤ c.2.1 ∧ c.2.1 < y1) ∧
      (z0 ≤ c.2.2 ∧ c.2.2 < z1) := by
  simp only [intRange3, List.mem_flatMap, List.mem_map, mem_intRange]
  constructor
  · rintro ⟨x, hx, y, hy, z, hz, rfl⟩
    exact ⟨hx, hy, hz⟩
  · rintro ⟨hx, hy, hz⟩
    exact ⟨c.1, hx, c.2.1, hy, c.2.2, hz, rfl⟩

/-! ## C4: per-voxel dropping of out-of-range coordinates -/

/-- **C4.** `apply_sdf` drops out-of-range coordinates per affected voxel,
never per edit: after any `apply_sdf` the materialized chunk positions are
exactly the previously materialized ones together with the chunk position
of every voxel of the (margin-expanded) box whose derived chunk coordinate
is in the `i8` range — so an edit straddling valid and invalid coordinate
space still touches the chunk of each of its in-range voxels, and an SDF
whose entire voxel box derives out-of-range chunk coordinates materializes
zero chunks from a fresh session. -/
theorem apply_sdf_per_voxel_drop (m : Modifier) (cmap : CPos → Option Nat)
    (getter : Nat → List Nat) (cp : CPos) (s : SdfModel) (mode : EditMode)
    (k : ℚ) (rel : ℚ × ℚ × ℚ) (p : CPos) :
    (p ∈ modKeys (applySdf m cmap getter cp s mode k rel) ↔
      p ∈ modKeys m ∨ ∃ c ∈ boxCoords s.aabbMin s.aabbMax rel,
        inRangeI8 (chunkOfVoxel cp c) ∧ p = chunkOfVoxel cp c) ∧
    ((∀ c ∈ boxCoords s.aabbMin s.aabbMax rel, ¬ inRangeI8 (chunkOfVoxel cp c)) →
      (applySdf emptyModifier cmap getter cp s mode k rel).modified = []) := by
  constructor
  · rw [applySdf, foldl_editStep_modKeys, mem_foldl_keyStep]
  · intro hall
    have hkeys : modKeys (applySdf emptyModifier cmap getter cp s mode k rel) = [] := by
      rw [List.eq_nil_iff_forall_not_mem]
      intro q hq
      rw [applySdf, foldl_editStep_modKeys, mem_foldl_keyStep] at hq
      rcases hq with hq | ⟨c, hc, hin, _⟩
      · simp [emptyModifier, modKeys] at hq
      · exact hall c hc hin
    unfold modKeys at hkeys
    exact List.map_eq_nil_iff.mp hkeys

/-- Witness for C4: an SDF whose whole voxel box (base chunk `(0,0,0)`,
sphere-radius-2 box at relative position `(15002, 0, 0)`) derives chunk
coordinates with x-component around `1000`, far outside the `i8` range —
the session materializes no chunk. -/
theorem apply_sdf_per_voxel_drop_witness :
    (applySdf emptyModifier cmapNone getterEmpty (0, 0, 0) sdfSphere2Demo
      EditMode.add 1 ((15002 : ℚ), 0, 0)).modified = [] := by
  have hbox : boxCoords sdfSphere2Demo.aabbMin sdfSphere2Demo.aabbMax
      ((15002 : ℚ), 0, 0) = intRange3 19999 20007 (-4) 4 (-4) 4 := by
    unfold boxCoords sdfSphere2Demo sphereAabbMin sphereAabbMax voxelSizeQ ratCeil
    simp only [ratFloor_eq_floor]
    norm_num
  have hall : ∀ c ∈ boxCoords sdfSphere2Demo.aabbMin sdfSphere2Demo.aabbMax
      ((15002 : ℚ), 0, 0), ¬ inRangeI8 (chunkOfVoxel (0, 0, 0) c) := by
    rw [hbox]
    intro c hc
    rw [mem_intRange3] at hc
    obtain ⟨⟨hx0, hx1⟩, _, _⟩ := hc
    unfold chunkOfVoxel floorDivF32 inRangeI8
    rintro ⟨_, hle, _⟩
    simp only at hle
    omega
  exact (apply_sdf_per_voxel_drop emptyModifier cmapNone getterEmpty
    (0, 0, 0) sdfSphere2Demo EditMode.add 1 ((15002 : ℚ), 0, 0) (0, 0, 0)).2 hall

/-! ## C5: a boundary-straddling sphere touches exactly two chunks -/

/-- **C5.** Applying a sphere SDF of radius 2 (bounding box
`[-2, 2]³`) at relative position `(1, 10, 10)` against base chunk
`(0, 0, 0)` in a fresh session materializes exactly 2 chunks: the base
chunk `(0, 0, 0)` and its `-x` neighbor `(-1, 0, 0)` across the crossed
boundary.  The distance function `f` itself is irrelevant to which chunks
are materialized, so the statement holds for every `f`, every mode, every
smoothness and every chunk map. -/
theorem sphere_boundary_two_chunks (f : ℚ × ℚ × ℚ → ℚ) (mode : EditMode)
    (k : ℚ) (cmap : CPos → Option Nat) (getter : Nat → List Nat) :
    (modKeys (applySdf emptyModifier cmap getter (0, 0, 0)
      ⟨f, sphereAabbMin 2, sphereAabbMax 2⟩ mode k ((1 : ℚ), 10, 10))).length = 2 ∧
    ((0 : Int), (0 : Int), (0 : Int)) ∈ modKeys (applySdf emptyModifier cmap getter
      (0, 0, 0) ⟨f, sphereAabbMin 2, sphereAabbMax 2⟩ mode k ((1 : ℚ), 10, 10)) ∧
    ((-1 : Int), (0 : Int), (0 : Int)) ∈ modKeys (applySdf emptyModifier cmap getter
      (0, 0, 0) ⟨f, sphereAabbMin 2, sphereAabbMax 2⟩ mode k ((1 : ℚ), 10, 10)) := by
  have hbox : boxCoords (sphereAabbMin 2) (sphereAabbMax 2) ((1 : ℚ), 10, 10)
      = intRange3 (-3) 5 9 17 9 17 := by
    unfold boxCoords sphereAabbMin sphereAabbMax voxelSizeQ ratCeil
    simp only [ratFloor_eq_floor]
    norm_num
  have hmem : ∀ p, p ∈ modKeys (applySdf emptyModifier cmap getter (0, 0, 0)
      ⟨f, sphereAabbMin 2, sphereAabbMax 2⟩ mode k ((1 : ℚ), 10, 10)) ↔
      ∃ c ∈ intRange3 (-3) 5 9 17 9 17,
        inRangeI8 (chunkOfVoxel (0, 0, 0) c) ∧ p = chunkOfVoxel (0, 0, 0) c := by
    intro p
    rw [applySdf, foldl_editStep_modKeys]
    rw [show (⟨f, sphereAabbMin 2, sphereAabbMax 2⟩ : SdfModel).aabbMin
        = sphereAabbMin 2 from rfl,
      show (⟨f, sphereAabbMin 2, sphereAabbMax 2⟩ : SdfModel).aabbMax
        = sphereAabbMax 2 from rfl, hbox, mem_foldl_keyStep]
    simp [emptyModifier, modKeys]
  have hm0 : ((0 : Int), (0 : Int), (0 : Int)) ∈ modKeys (applySdf emptyModifier
      cmap getter (0, 0, 0) ⟨f, sphereAabbMin 2, sphereAabbMax 2⟩ mode k
      ((1 : ℚ), 10, 10)) :=
    (hmem _).mpr ⟨(0, 9, 9), (mem_intRange3 _ _ _ _ _ _ _).mpr
      (by norm_num), by decide, by decide⟩
  have hm1 : ((-1 : Int), (0 : Int), (0 : Int)) ∈ modKeys (applySdf emptyModifier
      cmap getter (0, 0, 0) ⟨f, sphereAabbMin 2, sphereAabbMax 2⟩ mode k
      ((1 : ℚ), 10, 10)) :=
    (hmem _).mpr ⟨(-3, 9, 9), (mem_intRange3 _ _ _ _ _ _ _).mpr
      (by norm_num), by decide, by decide⟩
  have hsub : ∀ p ∈ modKeys (applySdf emptyModifier cmap getter (0, 0, 0)
      ⟨f, sphereAabbMin 2, sphereAabbMax 2⟩ mode k ((1 : ℚ), 10, 10)),
      p ∈ [((0 : Int), (0 : Int), (0 : Int)), ((-1 : Int), (0 : Int), (0 : Int))] := by
    intro p hp
    obtain ⟨c, hc, _, rfl⟩ := (hmem p).mp hp
    rw [mem_intRange3] at hc
    obtain ⟨⟨hx0, hx1⟩, ⟨hy0, hy1⟩, ⟨hz0, hz1⟩⟩ := hc
    unfold chunkOfVoxel floorDivF32
    have h2 : c.2.1 / 20 = 0 := by omega
    have h3 : c.2.2 / 20 = 0 := by omega
    have h1 : c.1 / 20 = -1 ∨ c.1 / 20 = 0 := by omega
    rcases h1 with h1 | h1 <;> simp [h1, h2, h3]
  have hnd : (modKeys (applySdf emptyModifier cmap getter (0, 0, 0)
      ⟨f, sphereAabbMin 2, sphereAabbMax 2⟩ mode k ((1 : ℚ), 10, 10))).Nodup := by
    rw [applySdf, foldl_editStep_modKeys]
    exact nodup_foldl_keyStep _ _ _ (by simp [emptyModifier, modKeys])
  have hperm : (modKeys (applySdf emptyModifier cmap getter (0, 0, 0)
      ⟨f, sphereAabbMin 2, sphereAabbMax 2⟩ mode k ((1 : ℚ), 10, 10))).Perm
      [((0 : Int), (0 : Int), (0 : Int)), ((-1 : Int), (0 : Int), (0 : Int))] := by
    rw [List.perm_ext_iff_of_nodup hnd (by decide)]
    intro a
    constructor
    · exact hsub a
    · intro ha
      rcases List.mem_cons.mp ha with rfl | ha2
      · exact hm0
      · rcases List.mem_cons.mp ha2 with rfl | ha3
        · exact hm1
        · exact absurd ha3 (List.not_mem_nil a)
  exact ⟨hperm.length_eq, hm0, hm1⟩

/-! ## C2: out-of-range chunk coordinates in editor and extractor -/

/-- **C2 (amended).** The editor's per-voxel chunk derivation computes
candidate coordinates in wide (`i32`) arithmetic and silently drops any
voxel whose derived chunk coordinate leaves the signed-8-bit range: it
returns no voxel and leaves the session state untouched.  The mesh
extractor's 27-neighborhood gathering, however, adds its neighbor offsets
with the `i8` `Add` impl of `ChunkPosition`, which wraps around: from a
chunk with a component at `i8::MAX` (resp. `i8::MIN`) the `+1` (resp. `-1`)
neighbor coordinate wraps to the opposite end of the range instead of being
treated as non-existent (and a checked/debug build would abort on the
overflow rather than proceed). -/
theorem oob_coordinate_handling :
    (∀ (m : Modifier) (cmap : CPos → Option Nat) (getter : Nat → List Nat)
      (cp : CPos) (rx ry rz : Int),
      ¬ inRangeI8 (chunkOfVoxel cp (rx, ry, rz)) →
        getVoxelStep m cmap getter cp rx ry rz = (m, none)) ∧
    chunkPosAdd (127, 0, 0) (1, 0, 0) = (-128, 0, 0) ∧
    chunkPosAdd (-128, 0, 0) (-1, 0, 0) = (127, 0, 0) := by
  refine ⟨?_, by decide, by decide⟩
  intro m cmap getter cp rx ry rz h
  unfold getVoxelStep
  rw [if_neg h]

/-- Witness for C2: a voxel offset of `100000` derives chunk x-coordinate
`5000`, out of range, and the editor drops it with the session unchanged. -/
theorem oob_coordinate_handling_witness :
    ¬ inRangeI8 (chunkOfVoxel (0, 0, 0) (100000, 0, 0)) ∧
    getVoxelStep emptyModifier cmapNone getterEmpty (0, 0, 0) 100000 0 0
      = (emptyModifier, none) :=
  ⟨by decide, oob_coordinate_handling.1 emptyModifier cmapNone getterEmpty
    (0, 0, 0) 100000 0 0 (by decide)⟩

/-- **C2 counterexample.** Gathering the 27-neighborhood of chunk
`(127, 0, 0)`: slot 14 is the `+x` neighbor (offset `(1, 0, 0)`, true
coordinate `(128, 0, 0)`, outside the `i8` range).  The claim says it is
treated as non-existent (gathered as `none` no matter what the map holds),
but the wrapping `i8` addition sends the lookup to `(-128, 0, 0)`, where
`cmapWrapDemo` holds a chunk — so data *is* gathered. -/
theorem extractor_wrap_cex :
    ¬ (gatherSlot cmapWrapDemo queryEmptyChunk (127, 0, 0) 14 = none) ∧
    delinearize27 14 = (2, 1, 1) := ⟨by decide, by decide⟩

/-! ## Model validation against the source's own unit tests -/

/-- The encoder model reproduces `test_rle` of `src/storage.rs`:
10 copies of raw 12, a raw 0, 8 copies of raw 29, a raw 1. -/
theorem model_matches_test_rle :
    encode [12, 12, 12, 12, 12, 12, 12, 12, 12, 12, 0,
            29, 29, 29, 29, 29, 29, 29, 29, 1]
      = [12, 12, 10, 0, 29, 29, 8, 1] := by decide

/-- The decoder model reproduces `test_rle_expand` of `src/storage.rs`. -/
theorem model_matches_test_rle_expand :
    expand [1, 1, 2, 3, 3, 4, 5] = [1, 1, 3, 3, 3, 3, 5] := by decide

end VoxelCore
